import Mathlib

/-!
Shallow embedding of `migrate.go` from OliverSDS/mongo-migrate.

The store state models the MongoDB database as seen by the package: the set
of existing collection names, the migrations ledger (a list of version
records, newest first, mirroring the `_id`-descending read the code
performs), a clock used for store-assigned timestamps, and an event trace
recording every invocation of a caller-supplied forward/backward action.

MongoDB driver primitives (list collections, create collection, find,
decode, insert) are modelled by their documented semantics, each with a
fault hook so storage failures can be injected; `noFaults` is the
fault-free driver.
-/

namespace MongoMigrate

/-- `versionRecord` from migrate.go: one persisted ledger entry. -/
structure VersionRecord where
  version : Nat
  description : String
  timestamp : Nat
deriving Repr, DecidableEq

/-- Trace of caller-supplied action invocations performed by the runner. -/
inductive Event where
  | upAction (version : Nat)
  | downAction (version : Nat)
deriving Repr, DecidableEq

/-- The database state visible to the package: existing collections, the
migrations ledger (newest record first), a clock for timestamps, and the
chronological action-invocation trace. -/
structure Store where
  collections : List String
  ledger : List VersionRecord
  clock : Nat
  events : List Event
deriving Repr, DecidableEq

/-- Errors surfaced by store primitives and by caller-supplied actions.
`noDocuments` models `mongo.ErrNoDocuments`. -/
inductive MErr where
  | listErr
  | createErr
  | noDocuments
  | findErr
  | decodeErr
  | insertErr
  | actionErr (version : Nat)
deriving Repr, DecidableEq

/-- Fault injection for the store primitives: each hook decides, from the
current store state, whether that primitive call fails. -/
structure Faults where
  listFail : Store → Bool
  createFail : Store → Bool
  findFail : Store → Bool
  decodeFail : Store → Bool
  insertFail : Store → Bool

/-- The fault-free driver: every primitive succeeds. -/
def noFaults : Faults :=
  { listFail := fun _ => false
    createFail := fun _ => false
    findFail := fun _ => false
    decodeFail := fun _ => false
    insertFail := fun _ => false }

/-- Driver: `db.ListCollectionNames`. -/
def listCollectionNames (f : Faults) (s : Store) : Except MErr (List String) :=
  if f.listFail s then .error .listErr else .ok s.collections

/-- Driver: `db.RunCommand({create: name})`; on success the collection exists. -/
def runCreateCollection (f : Faults) (name : String) (s : Store) :
    Except MErr Unit × Store :=
  if f.createFail s then (.error .createErr, s)
  else (.ok (), { s with collections := s.collections ++ [name] })

/-- Driver: `Find` on the migrations collection. Results keep ledger order
(newest first, matching the `_id`-descending sort used by `Version`); an
empty result surfaces as `noDocuments`, the condition migrate.go tests for. -/
def findRecords (f : Faults) (filter : VersionRecord → Bool) (s : Store) :
    Except MErr (List VersionRecord) :=
  if f.findFail s then .error .findErr
  else
    match s.ledger.filter filter with
    | [] => .error .noDocuments
    | r :: rs => .ok (r :: rs)

/-- Driver: `cursor.Decode` — yields the first result document. -/
def decodeFirst (f : Faults) (recs : List VersionRecord) (s : Store) :
    Except MErr VersionRecord :=
  if f.decodeFail s then .error .decodeErr
  else
    match recs with
    | [] => .error .decodeErr
    | r :: _ => .ok r

/-- Driver: `InsertOne` — prepends the record (newest first) and ticks the
clock that assigns timestamps. -/
def insertOne (f : Faults) (rec : VersionRecord) (s : Store) :
    Except MErr Unit × Store :=
  if f.insertFail s then (.error .insertErr, s)
  else (.ok (), { s with ledger := rec :: s.ledger, clock := s.clock + 1 })

/-- Modelled from the spec: the `Migration` definition type lives in a
repository file that is not under src (migrate.go references it with fields
`Version`, `Description` and optional `Up`/`Down` actions). A caller-supplied
action is modelled by whether its invocation succeeds (`some true` succeeds,
`some false` fails, `none` is an absent action). -/
structure Migration where
  Version : Nat
  Description : String
  Up : Option Bool
  Down : Option Bool
deriving Repr, DecidableEq

/-- The `Migrate` runner: the registered catalog and the ledger collection
name (default `"migrations"`). -/
structure Migrate where
  migrations : List Migration
  migrationsCollection : String
deriving Repr, DecidableEq

/-- `NewMigrate`: defensively copies the catalog and uses the default
collection name. -/
def NewMigrate (migrations : List Migration) : Migrate :=
  { migrations := migrations, migrationsCollection := "migrations" }

/-- `AllAvailable = -1` from migrate.go. -/
def AllAvailable : Int := -1

/-- Insert one migration into a version-ascending list. -/
def insertByVersion (mig : Migration) : List Migration → List Migration
  | [] => [mig]
  | x :: xs =>
    if mig.Version ≤ x.Version then mig :: x :: xs
    else x :: insertByVersion mig xs

/-- Modelled from the spec: `migrationSort` is defined in a repository file
that is not under src; the spec fixes its behaviour as sorting the catalog
ascending by version with no secondary key. Modelled as insertion sort on
the version field. -/
def migrationSort (l : List Migration) : List Migration :=
  l.foldr insertByVersion []

/-- `isCollectionExist`: list the collection names and scan for `name`. -/
def isCollectionExist (f : Faults) (name : String) (s : Store) :
    Except MErr Bool :=
  match listCollectionNames f s with
  | .error e => .error e
  | .ok colls => .ok (colls.contains name)

/-- `createCollectionIfNotExist`. -/
def createCollectionIfNotExist (f : Faults) (name : String) (s : Store) :
    Except MErr Unit × Store :=
  match isCollectionExist f name s with
  | .error e => (.error e, s)
  | .ok true => (.ok (), s)
  | .ok false => runCreateCollection f name s

/-- `Version`: ensure the collection exists, then read the newest record;
an empty ledger (`noDocuments`) is version 0 with empty description, not an
error. -/
def Migrate.Version (m : Migrate) (f : Faults) (s : Store) :
    Except MErr (Nat × String) × Store :=
  match createCollectionIfNotExist f m.migrationsCollection s with
  | (.error e, s1) => (.error e, s1)
  | (.ok _, s1) =>
    match findRecords f (fun _ => true) s1 with
    | .error .noDocuments => (.ok (0, ""), s1)
    | .error e => (.error e, s1)
    | .ok recs =>
      match decodeFirst f recs s1 with
      | .error e => (.error e, s1)
      | .ok rec => (.ok (rec.version, rec.description), s1)

/-- `Applied`: ensure the collection exists, then look for any record with
the given version; every failure path returns `false`. -/
def Migrate.Applied (m : Migrate) (f : Faults) (s : Store) (version : Nat) :
    Bool × Store :=
  match createCollectionIfNotExist f m.migrationsCollection s with
  | (.error _, s1) => (false, s1)
  | (.ok _, s1) =>
    match findRecords f (fun rec => rec.version == version) s1 with
    | .error _ => (false, s1)
    | .ok recs =>
      match decodeFirst f recs s1 with
      | .error _ => (false, s1)
      | .ok _ => (true, s1)

/-- `SetVersion`: insert a record directly (no collection-existence check),
with the store-assigned timestamp. -/
def Migrate.SetVersion (m : Migrate) (f : Faults) (s : Store)
    (version : Nat) (description : String) : Except MErr Unit × Store :=
  insertOne f
    { version := version, description := description, timestamp := s.clock } s

/-- The loop body of `Up`: walk the sorted catalog with `n` counted steps
remaining; a definition that is already applied or has no forward action is
skipped without consuming a step. An invoked forward action is traced; on
action or insert failure the error is returned at once. -/
def upGo (m : Migrate) (f : Faults) :
    List Migration → Nat → Store → Except MErr Unit × Store
  | [], _, s => (.ok (), s)
  | _ :: _, 0, s => (.ok (), s)
  | mig :: rest, n + 1, s =>
    let res := Migrate.Applied m f s mig.Version
    if res.1 || mig.Up == none then upGo m f rest (n + 1) res.2
    else
      let s1 := { res.2 with events := res.2.events ++ [Event.upAction mig.Version] }
      if mig.Up == some true then
        match Migrate.SetVersion m f s1 mig.Version mig.Description with
        | (.ok _, s2) => upGo m f rest n s2
        | (.error e, s2) => (.error e, s2)
      else (.error (.actionErr mig.Version), s1)

/-- `Up(n)`: normalize the count (`n ≤ 0` or `n > len` means all), sort the
catalog ascending by version, and walk it. -/
def Migrate.Up (m : Migrate) (f : Faults) (n : Int) (s : Store) :
    Except MErr Unit × Store :=
  let len := m.migrations.length
  let eff : Nat := if n ≤ 0 ∨ (len : Int) < n then len else n.toNat
  upGo m f (migrationSort m.migrations) eff s

/-- The Go zero value `Migration{Version: 0}` used as the predecessor of the
first catalog entry. -/
def sentinel : Migration :=
  { Version := 0, Description := "", Up := none, Down := none }

/-- Pair each sorted catalog entry with its predecessor (the previous sorted
entry, or the sentinel for the first), in the descending order `Down` walks:
`Down`'s loop index `i` pairs `migrations[i]` with `migrations[i-1]`. -/
def withPred (l : List Migration) : List (Migration × Migration) :=
  (l.zip (sentinel :: l)).reverse

/-- The loop body of `Down`: walk descending with `n` counted steps
remaining; a definition whose version exceeds the current version, or with
no backward action, is skipped without consuming a step. After a successful
backward action the predecessor's version/description is recorded. -/
def downGo (m : Migrate) (f : Faults) (cur : Nat) :
    List (Migration × Migration) → Nat → Store → Except MErr Unit × Store
  | [], _, s => (.ok (), s)
  | _ :: _, 0, s => (.ok (), s)
  | (mig, prev) :: rest, n + 1, s =>
    if cur < mig.Version || mig.Down == none then downGo m f cur rest (n + 1) s
    else
      let s1 := { s with events := s.events ++ [Event.downAction mig.Version] }
      if mig.Down == some true then
        match Migrate.SetVersion m f s1 prev.Version prev.Description with
        | (.ok _, s2) => downGo m f cur rest n s2
        | (.error e, s2) => (.error e, s2)
      else (.error (.actionErr mig.Version), s1)

/-- `Down(n)`: read the current version (propagating its error), normalize
the count, sort ascending, and walk the catalog from the end. -/
def Migrate.Down (m : Migrate) (f : Faults) (n : Int) (s : Store) :
    Except MErr Unit × Store :=
  match Migrate.Version m f s with
  | (.error e, s1) => (.error e, s1)
  | (.ok cur, s1) =>
    let len := m.migrations.length
    let eff : Nat := if n ≤ 0 ∨ (len : Int) < n then len else n.toNat
    downGo m f cur.1 (withPred (migrationSort m.migrations)) eff s1

/-- Whether some ledger record carries the given version (what a fault-free
`Applied` lookup observes). -/
def hasVersion (l : List VersionRecord) (v : Nat) : Bool :=
  l.any fun rec => rec.version == v

/-- Number of forward-action invocations in a trace. -/
def upCount (es : List Event) : Nat :=
  (es.filter fun e => match e with | .upAction _ => true | _ => false).length

/-- Number of backward-action invocations in a trace. -/
def downCount (es : List Event) : Nat :=
  (es.filter fun e => match e with | .downAction _ => true | _ => false).length

/-- The store after a fault-free `createCollectionIfNotExist`: the collection
is added exactly when it was missing. -/
def ensureColl (name : String) (s : Store) : Store :=
  if s.collections.contains name then s
  else { s with collections := s.collections ++ [name] }

theorem ensureColl_ledger (name : String) (s : Store) :
    (ensureColl name s).ledger = s.ledger := by
  unfold ensureColl; split <;> rfl

theorem ensureColl_events (name : String) (s : Store) :
    (ensureColl name s).events = s.events := by
  unfold ensureColl; split <;> rfl

theorem ensureColl_clock (name : String) (s : Store) :
    (ensureColl name s).clock = s.clock := by
  unfold ensureColl; split <;> rfl

theorem ensureColl_contains (name : String) (s : Store) :
    (ensureColl name s).collections.contains name = true := by
  unfold ensureColl
  by_cases hmem : name ∈ s.collections <;> simp [hmem]

theorem createColl_noFaults (name : String) (s : Store) :
    createCollectionIfNotExist noFaults name s = (.ok (), ensureColl name s) := by
  unfold createCollectionIfNotExist isCollectionExist listCollectionNames
    runCreateCollection ensureColl noFaults
  by_cases hmem : name ∈ s.collections <;> simp [hmem]

theorem createColl_state (f : Faults) (name : String) (s : Store) :
    (createCollectionIfNotExist f name s).2 = s ∨
    (createCollectionIfNotExist f name s).2 =
      { s with collections := s.collections ++ [name] } := by
  unfold createCollectionIfNotExist isCollectionExist listCollectionNames
    runCreateCollection
  cases hl : f.listFail s <;> simp [hl]
  by_cases hmem : name ∈ s.collections
  · simp [hmem]
  · cases hcr : f.createFail s <;> simp [hmem, hcr]

theorem createColl_ledger (f : Faults) (name : String) (s : Store) :
    ((createCollectionIfNotExist f name s).2).ledger = s.ledger := by
  rcases createColl_state f name s with h | h <;> rw [h]

theorem createColl_events (f : Faults) (name : String) (s : Store) :
    ((createCollectionIfNotExist f name s).2).events = s.events := by
  rcases createColl_state f name s with h | h <;> rw [h]

theorem createColl_clock (f : Faults) (name : String) (s : Store) :
    ((createCollectionIfNotExist f name s).2).clock = s.clock := by
  rcases createColl_state f name s with h | h <;> rw [h]

theorem hasVersion_cons (r : VersionRecord) (l : List VersionRecord) (v : Nat) :
    hasVersion (r :: l) v = ((r.version == v) || hasVersion l v) := by
  simp [hasVersion]

theorem hasVersion_eq_true_iff (l : List VersionRecord) (v : Nat) :
    hasVersion l v = true ↔ ∃ rec ∈ l, rec.version = v := by
  simp [hasVersion]

theorem hasVersion_of_suffix (l₁ l₂ : List VersionRecord) (v : Nat)
    (h : List.IsSuffix l₁ l₂) (hv : hasVersion l₁ v = true) :
    hasVersion l₂ v = true := by
  rw [hasVersion_eq_true_iff] at hv ⊢
  obtain ⟨rec, hm, hr⟩ := hv
  exact ⟨rec, h.subset hm, hr⟩

/-- A fault-free `Applied` returns exactly "some ledger record has this
version", and touches the store only by ensuring the collection exists. -/
theorem applied_noFaults (m : Migrate) (s : Store) (v : Nat) :
    Migrate.Applied m noFaults s v =
      (hasVersion s.ledger v, ensureColl m.migrationsCollection s) := by
  unfold Migrate.Applied
  rw [createColl_noFaults]
  show (match findRecords noFaults _ (ensureColl m.migrationsCollection s) with
    | .error _ => (false, ensureColl m.migrationsCollection s)
    | .ok recs =>
      match decodeFirst noFaults recs (ensureColl m.migrationsCollection s) with
      | .error _ => (false, ensureColl m.migrationsCollection s)
      | .ok _ => (true, ensureColl m.migrationsCollection s)) = _
  unfold findRecords decodeFirst noFaults
  simp only [ensureColl_ledger]
  cases hf : s.ledger.filter (fun rec => rec.version == v) with
  | nil =>
    have : hasVersion s.ledger v = false := by
      rw [← Bool.not_eq_true, hasVersion_eq_true_iff]
      rintro ⟨rec, hm, hr⟩
      have : rec ∈ s.ledger.filter (fun rec => rec.version == v) :=
        List.mem_filter.mpr ⟨hm, by simp [hr]⟩
      simp [hf] at this
    simp [this]
  | cons r rs =>
    have : hasVersion s.ledger v = true := by
      rw [hasVersion_eq_true_iff]
      have hrmem : r ∈ s.ledger.filter (fun rec => rec.version == v) := by
        rw [hf]; exact List.mem_cons_self r rs
      have := List.mem_filter.mp hrmem
      exact ⟨r, this.1, by simpa using this.2⟩
    simp [this]

theorem applied_state (m : Migrate) (f : Faults) (s : Store) (v : Nat) :
    (Migrate.Applied m f s v).2 =
      (createCollectionIfNotExist f m.migrationsCollection s).2 := by
  unfold Migrate.Applied
  split <;> rename_i s1 heq <;> rw [heq]
  split
  · rfl
  · split <;> rfl

theorem applied_ledger (m : Migrate) (f : Faults) (s : Store) (v : Nat) :
    ((Migrate.Applied m f s v).2).ledger = s.ledger := by
  rw [applied_state]; exact createColl_ledger f _ s

theorem applied_events (m : Migrate) (f : Faults) (s : Store) (v : Nat) :
    ((Migrate.Applied m f s v).2).events = s.events := by
  rw [applied_state]; exact createColl_events f _ s

theorem applied_clock (m : Migrate) (f : Faults) (s : Store) (v : Nat) :
    ((Migrate.Applied m f s v).2).clock = s.clock := by
  rw [applied_state]; exact createColl_clock f _ s

theorem version_state (m : Migrate) (f : Faults) (s : Store) :
    (Migrate.Version m f s).2 =
      (createCollectionIfNotExist f m.migrationsCollection s).2 := by
  unfold Migrate.Version
  split <;> rename_i s1 heq <;> rw [heq]
  split
  · rfl
  · rfl
  · split <;> rfl

theorem version_ledger (m : Migrate) (f : Faults) (s : Store) :
    ((Migrate.Version m f s).2).ledger = s.ledger := by
  rw [version_state]; exact createColl_ledger f _ s

theorem version_events (m : Migrate) (f : Faults) (s : Store) :
    ((Migrate.Version m f s).2).events = s.events := by
  rw [version_state]; exact createColl_events f _ s

theorem version_clock (m : Migrate) (f : Faults) (s : Store) :
    ((Migrate.Version m f s).2).clock = s.clock := by
  rw [version_state]; exact createColl_clock f _ s

/-- A fault-free `Version` on a nonempty ledger reads the newest record. -/
theorem version_noFaults_cons (m : Migrate) (s : Store) (r : VersionRecord)
    (rs : List VersionRecord) (h : s.ledger = r :: rs) :
    Migrate.Version m noFaults s =
      (.ok (r.version, r.description), ensureColl m.migrationsCollection s) := by
  unfold Migrate.Version
  rw [createColl_noFaults]
  simp [findRecords, decodeFirst, noFaults, ensureColl_ledger, h]

/-- A fault-free `Version` on an empty ledger is version 0, no error. -/
theorem version_noFaults_nil (m : Migrate) (s : Store) (h : s.ledger = []) :
    Migrate.Version m noFaults s =
      (.ok (0, ""), ensureColl m.migrationsCollection s) := by
  unfold Migrate.Version
  rw [createColl_noFaults]
  simp [findRecords, decodeFirst, noFaults, ensureColl_ledger, h]

/-- A fault-free `SetVersion` appends a record stamped with the store clock. -/
theorem setVersion_noFaults (m : Migrate) (s : Store) (v : Nat) (d : String) :
    Migrate.SetVersion m noFaults s v d =
      (.ok (), { s with
        ledger := ⟨v, d, s.clock⟩ :: s.ledger, clock := s.clock + 1 }) := by
  unfold Migrate.SetVersion insertOne noFaults
  simp

theorem setVersion_ledger (m : Migrate) (f : Faults) (s : Store) (v : Nat)
    (d : String) :
    ((Migrate.SetVersion m f s v d).2).ledger = s.ledger ∨
    ((Migrate.SetVersion m f s v d).2).ledger =
      (⟨v, d, s.clock⟩ : VersionRecord) :: s.ledger := by
  unfold Migrate.SetVersion insertOne
  cases h : f.insertFail s <;> simp [h]

theorem setVersion_suffix (m : Migrate) (f : Faults) (s : Store) (v : Nat)
    (d : String) :
    List.IsSuffix s.ledger ((Migrate.SetVersion m f s v d).2).ledger := by
  rcases setVersion_ledger m f s v d with h | h <;> rw [h]
  exact List.suffix_cons _ _

theorem setVersion_suffix_of_eq (m : Migrate) (f : Faults) (s : Store)
    (v : Nat) (d : String) (r : Except MErr Unit) (s2 : Store)
    (h : Migrate.SetVersion m f s v d = (r, s2)) :
    List.IsSuffix s.ledger s2.ledger := by
  have hs := setVersion_suffix m f s v d
  rw [h] at hs
  exact hs

/-- The `Up` loop only ever appends to the ledger. -/
theorem upGo_ledger_suffix (m : Migrate) (f : Faults) :
    ∀ (l : List Migration) (n : Nat) (s : Store),
      List.IsSuffix s.ledger ((upGo m f l n s).2).ledger := by
  intro l
  induction l with
  | nil => intro n s; exact List.suffix_refl _
  | cons mig rest ih =>
    intro n s
    cases n with
    | zero => exact List.suffix_refl _
    | succ k =>
      simp only [upGo]
      split
      · have h1 := ih (k + 1) (Migrate.Applied m f s mig.Version).2
        rw [applied_ledger] at h1
        exact h1
      · split
        · split <;> rename_i u s2 heq
          · have h2 := setVersion_suffix_of_eq _ _ _ _ _ _ _ heq
            simp only [applied_ledger] at h2
            exact h2.trans (ih k s2)
          · have h2 := setVersion_suffix_of_eq _ _ _ _ _ _ _ heq
            simp only [applied_ledger] at h2
            exact h2
        · simp only [applied_ledger]
          exact List.suffix_refl _

/-- The `Down` loop only ever appends to the ledger. -/
theorem downGo_ledger_suffix (m : Migrate) (f : Faults) (cur : Nat) :
    ∀ (l : List (Migration × Migration)) (n : Nat) (s : Store),
      List.IsSuffix s.ledger ((downGo m f cur l n s).2).ledger := by
  intro l
  induction l with
  | nil => intro n s; exact List.suffix_refl _
  | cons pr rest ih =>
    intro n s
    cases n with
    | zero => exact List.suffix_refl _
    | succ k =>
      simp only [downGo]
      split
      · exact ih (k + 1) s
      · split
        · split <;> rename_i u s2 heq
          · have h2 := setVersion_suffix_of_eq _ _ _ _ _ _ _ heq
            exact h2.trans (ih k s2)
          · have h2 := setVersion_suffix_of_eq _ _ _ _ _ _ _ heq
            exact h2
        · exact List.suffix_refl _

theorem insertByVersion_length (mig : Migration) (l : List Migration) :
    (insertByVersion mig l).length = l.length + 1 := by
  induction l with
  | nil => rfl
  | cons x xs ih =>
    simp only [insertByVersion]
    split <;> simp [ih]

theorem migrationSort_length (l : List Migration) :
    (migrationSort l).length = l.length := by
  unfold migrationSort
  induction l with
  | nil => rfl
  | cons x xs ih => simp [insertByVersion_length, ih]

theorem upGo_suffix_of_eq (m : Migrate) (f : Faults) (l : List Migration)
    (n : Nat) (s : Store) (r : Except MErr Unit) (s2 : Store)
    (h : upGo m f l n s = (r, s2)) : List.IsSuffix s.ledger s2.ledger := by
  have hs := upGo_ledger_suffix m f l n s
  rw [h] at hs
  exact hs

theorem downGo_suffix_of_eq (m : Migrate) (f : Faults) (cur : Nat)
    (l : List (Migration × Migration)) (n : Nat) (s : Store)
    (r : Except MErr Unit) (s2 : Store)
    (h : downGo m f cur l n s = (r, s2)) : List.IsSuffix s.ledger s2.ledger := by
  have hs := downGo_ledger_suffix m f cur l n s
  rw [h] at hs
  exact hs

/-- After a successful fault-free pass of the `Up` loop with enough steps
allowed, every definition that has a forward action is recorded as applied. -/
theorem up_covers (m : Migrate) :
    ∀ (l : List Migration) (n : Nat) (s s2 : Store),
      upGo m noFaults l n s = (.ok (), s2) →
      l.length ≤ n →
      ∀ mig ∈ l, mig.Up ≠ none → hasVersion s2.ledger mig.Version = true := by
  intro l
  induction l with
  | nil =>
    intro n s s2 h hn mig hm
    exact absurd hm (List.not_mem_nil mig)
  | cons mg rest ih =>
    intro n s s2 h hn mig hm
    cases n with
    | zero => simp at hn
    | succ k =>
      simp only [upGo, applied_noFaults] at h
      by_cases hskip : (hasVersion s.ledger mg.Version || (mg.Up == none)) = true
      · rw [if_pos hskip] at h
        rcases List.mem_cons.mp hm with hmg | hrest
        · subst hmg
          intro hU
          have hv : hasVersion s.ledger mig.Version = true := by
            rcases Bool.or_eq_true_iff.mp hskip with hv | hnone
            · exact hv
            · exact absurd (by simpa using hnone) hU
          have hs := upGo_suffix_of_eq _ _ _ _ _ _ _ h
          rw [ensureColl_ledger] at hs
          exact hasVersion_of_suffix _ _ _ hs hv
        · exact ih (k + 1) _ s2 h (by simp at hn; omega) mig hrest
      · rw [if_neg hskip] at h
        have hnotnone : (mg.Up == none) = false := by
          rcases ho : mg.Up == none with _ | _
          · rfl
          · exact absurd (by simp [ho]) hskip
        cases hU : mg.Up with
        | none => simp [hU] at hnotnone
        | some b =>
          cases b with
          | false => simp [hU] at h
          | true =>
            rw [hU] at h
            simp only [beq_self_eq_true, if_true, setVersion_noFaults] at h
            rcases List.mem_cons.mp hm with hmg | hrest
            · subst hmg
              intro _
              have hs := upGo_suffix_of_eq _ _ _ _ _ _ _ h
              refine hasVersion_of_suffix _ _ _ hs ?_
              simp [hasVersion_cons]
            · intro hUm
              exact ih k _ s2 h (by simp at hn; omega) mig hrest hUm

/-- A fault-free `Up` loop over definitions that are all already applied (or
have no forward action) succeeds, invokes nothing and writes nothing. -/
theorem up_skips (m : Migrate) :
    ∀ (l : List Migration) (n : Nat) (s : Store),
      (∀ mig ∈ l, mig.Up ≠ none → hasVersion s.ledger mig.Version = true) →
      (upGo m noFaults l n s).1 = .ok () ∧
      ((upGo m noFaults l n s).2).ledger = s.ledger ∧
      ((upGo m noFaults l n s).2).events = s.events := by
  intro l
  induction l with
  | nil => intro n s hyp; simp [upGo]
  | cons mg rest ih =>
    intro n s hyp
    cases n with
    | zero => simp [upGo]
    | succ k =>
      have hcond : (hasVersion s.ledger mg.Version || (mg.Up == none)) = true := by
        cases hU : mg.Up with
        | none => simp
        | some b =>
          have := hyp mg (List.mem_cons_self mg rest) (by simp [hU])
          simp [this]
      simp only [upGo, applied_noFaults, hcond, if_pos]
      have ih2 := ih (k + 1) (ensureColl m.migrationsCollection s) (by
        intro mig hm hU
        rw [ensureColl_ledger]
        exact hyp mig (List.mem_cons_of_mem mg hm) hU)
      rw [ensureColl_ledger, ensureColl_events] at ih2
      exact ih2

/-- C2: `Version()` against a store whose migrations collection exists but
holds zero records returns version 0, empty description, and no error, and
leaves the store untouched. -/
theorem c2_empty_ledger_baseline (m : Migrate) (s : Store)
    (hcoll : m.migrationsCollection ∈ s.collections)
    (hnil : s.ledger = []) :
    Migrate.Version m noFaults s = (.ok (0, ""), s) := by
  rw [version_noFaults_nil m s hnil]
  unfold ensureColl
  simp [hcoll]

/-- C2 witness. -/
theorem c2_empty_ledger_baseline_witness :
    Migrate.Version (NewMigrate []) noFaults
        { collections := ["migrations"], ledger := [], clock := 0,
          events := [] } =
      (.ok (0, ""),
        { collections := ["migrations"], ledger := [], clock := 0,
          events := [] }) :=
  c2_empty_ledger_baseline (NewMigrate [])
    { collections := ["migrations"], ledger := [], clock := 0, events := [] }
    (by simp [NewMigrate]) rfl

/-- C3: if `Up(AllAvailable)` succeeds, an immediately following
`Up(AllAvailable)` also succeeds, invokes no forward action and appends no
record: every definition is already applied or has no forward action. -/
theorem c3_up_idempotent (m : Migrate) (s s1 : Store)
    (h : Migrate.Up m noFaults AllAvailable s = (.ok (), s1)) :
    (Migrate.Up m noFaults AllAvailable s1).1 = .ok () ∧
    ((Migrate.Up m noFaults AllAvailable s1).2).ledger = s1.ledger ∧
    ((Migrate.Up m noFaults AllAvailable s1).2).events = s1.events := by
  simp only [Migrate.Up] at h ⊢
  have hcond : (AllAvailable ≤ 0 ∨ ((m.migrations.length : Int) < AllAvailable)) := by
    left
    unfold AllAvailable
    omega
  rw [if_pos hcond] at h ⊢
  have hcover := up_covers m (migrationSort m.migrations) m.migrations.length
    s s1 h (by rw [migrationSort_length])
  exact up_skips m (migrationSort m.migrations) m.migrations.length s1 hcover

/-- C3 witness. -/
theorem c3_up_idempotent_witness :
    Migrate.Up (NewMigrate [⟨1, "a", some true, some true⟩]) noFaults
        AllAvailable
        { collections := ["migrations"], ledger := [], clock := 0,
          events := [] } =
      (.ok (),
        { collections := ["migrations"],
          ledger := [⟨1, "a", 0⟩], clock := 1,
          events := [Event.upAction 1] }) ∧
    ((Migrate.Up (NewMigrate [⟨1, "a", some true, some true⟩]) noFaults
        AllAvailable
        { collections := ["migrations"],
          ledger := [⟨1, "a", 0⟩], clock := 1,
          events := [Event.upAction 1] }).1 = .ok () ∧
      ((Migrate.Up (NewMigrate [⟨1, "a", some true, some true⟩]) noFaults
        AllAvailable
        { collections := ["migrations"],
          ledger := [⟨1, "a", 0⟩], clock := 1,
          events := [Event.upAction 1] }).2).ledger = [⟨1, "a", 0⟩] ∧
      ((Migrate.Up (NewMigrate [⟨1, "a", some true, some true⟩]) noFaults
        AllAvailable
        { collections := ["migrations"],
          ledger := [⟨1, "a", 0⟩], clock := 1,
          events := [Event.upAction 1] }).2).events = [Event.upAction 1]) :=
  ⟨rfl,
    c3_up_idempotent (NewMigrate [⟨1, "a", some true, some true⟩])
      { collections := ["migrations"], ledger := [], clock := 0, events := [] }
      { collections := ["migrations"], ledger := [⟨1, "a", 0⟩], clock := 1,
        events := [Event.upAction 1] } rfl⟩

/-- C6: `Applied(version)` is true exactly when a record with that version
exists anywhere in the ledger (fault-free lookup), and returns false when
the collection listing, the collection creation, the find, or the decode
step fails — a lookup failure is indistinguishable from "not applied". -/
theorem c6_applied_iff_and_fail_closed :
    (∀ (m : Migrate) (s : Store) (v : Nat),
      (Migrate.Applied m noFaults s v).1 = true ↔
        ∃ rec ∈ s.ledger, rec.version = v) ∧
    (∀ (m : Migrate) (f : Faults) (s : Store) (v : Nat),
      f.listFail s = true → (Migrate.Applied m f s v).1 = false) ∧
    (∀ (m : Migrate) (f : Faults) (s : Store) (v : Nat),
      f.listFail s = false → s.collections.contains m.migrationsCollection = false →
      f.createFail s = true → (Migrate.Applied m f s v).1 = false) ∧
    (∀ (m : Migrate) (f : Faults) (s : Store) (v : Nat),
      f.listFail s = false → s.collections.contains m.migrationsCollection = true →
      f.findFail s = true → (Migrate.Applied m f s v).1 = false) ∧
    (∀ (m : Migrate) (f : Faults) (s : Store) (v : Nat),
      f.listFail s = false → s.collections.contains m.migrationsCollection = true →
      f.findFail s = false → f.decodeFail s = true →
      (Migrate.Applied m f s v).1 = false) := by
  refine ⟨?_, ?_, ?_, ?_, ?_⟩
  · intro m s v
    rw [applied_noFaults]
    exact hasVersion_eq_true_iff s.ledger v
  · intro m f s v hl
    unfold Migrate.Applied createCollectionIfNotExist isCollectionExist
      listCollectionNames
    simp [hl]
  · intro m f s v hl hc hcr
    unfold Migrate.Applied createCollectionIfNotExist isCollectionExist
      listCollectionNames runCreateCollection
    simp at hc
    simp [hl, hc, hcr]
  · intro m f s v hl hc hf
    unfold Migrate.Applied createCollectionIfNotExist isCollectionExist
      listCollectionNames findRecords
    simp at hc
    simp [hl, hc, hf]
  · intro m f s v hl hc hf hd
    unfold Migrate.Applied createCollectionIfNotExist isCollectionExist
      listCollectionNames findRecords decodeFirst
    simp at hc
    simp [hl, hc, hf, hd]
    split <;> rfl

/-- C6 witness: a store holding a record for version 7; the fault-free
lookup sees it, and each injected failure yields `false` instead. -/
theorem c6_applied_iff_and_fail_closed_witness :
    ((Migrate.Applied (NewMigrate []) noFaults
        { collections := ["migrations"], ledger := [⟨7, "x", 0⟩], clock := 1,
          events := [] } 7).1 = true ↔
      ∃ rec ∈ [(⟨7, "x", 0⟩ : VersionRecord)], rec.version = 7) ∧
    (Migrate.Applied (NewMigrate [])
      { listFail := fun _ => true, createFail := fun _ => false
        findFail := fun _ => false, decodeFail := fun _ => false
        insertFail := fun _ => false }
      { collections := ["migrations"], ledger := [⟨7, "x", 0⟩], clock := 1,
        events := [] } 7).1 = false ∧
    (Migrate.Applied (NewMigrate [])
      { listFail := fun _ => false, createFail := fun _ => true
        findFail := fun _ => false, decodeFail := fun _ => false
        insertFail := fun _ => false }
      { collections := [], ledger := [⟨7, "x", 0⟩], clock := 1,
        events := [] } 7).1 = false ∧
    (Migrate.Applied (NewMigrate [])
      { listFail := fun _ => false, createFail := fun _ => false
        findFail := fun _ => true, decodeFail := fun _ => false
        insertFail := fun _ => false }
      { collections := ["migrations"], ledger := [⟨7, "x", 0⟩], clock := 1,
        events := [] } 7).1 = false ∧
    (Migrate.Applied (NewMigrate [])
      { listFail := fun _ => false, createFail := fun _ => false
        findFail := fun _ => false, decodeFail := fun _ => true
        insertFail := fun _ => false }
      { collections := ["migrations"], ledger := [⟨7, "x", 0⟩], clock := 1,
        events := [] } 7).1 = false :=
  ⟨c6_applied_iff_and_fail_closed.1 _ _ _,
    c6_applied_iff_and_fail_closed.2.1 _ _ _ _ rfl,
    c6_applied_iff_and_fail_closed.2.2.1 _ _ _ _ rfl rfl rfl,
    c6_applied_iff_and_fail_closed.2.2.2.1 _ _ _ _ rfl rfl rfl,
    c6_applied_iff_and_fail_closed.2.2.2.2 _ _ _ _ rfl rfl rfl rfl⟩

theorem ensureColl_of_contains (name : String) (s : Store)
    (h : s.collections.contains name = true) : ensureColl name s = s := by
  unfold ensureColl
  rw [h]
  rfl

/-- C8: a definition with no forward action, or one already applied, is
silently skipped by the `Up` loop, and a definition with no backward action
is silently skipped by the `Down` loop regardless of the current version;
each skip leaves the walk (and its remaining step budget `n`) unchanged. -/
theorem c8_skip_semantics :
    (∀ (m : Migrate) (mig : Migration) (rest : List Migration) (n : Nat)
        (s : Store),
      s.collections.contains m.migrationsCollection = true → mig.Up = none →
      upGo m noFaults (mig :: rest) n s = upGo m noFaults rest n s) ∧
    (∀ (m : Migrate) (mig : Migration) (rest : List Migration) (n : Nat)
        (s : Store),
      s.collections.contains m.migrationsCollection = true →
      hasVersion s.ledger mig.Version = true →
      upGo m noFaults (mig :: rest) n s = upGo m noFaults rest n s) ∧
    (∀ (m : Migrate) (f : Faults) (cur : Nat) (mig prev : Migration)
        (rest : List (Migration × Migration)) (n : Nat) (s : Store),
      mig.Down = none →
      downGo m f cur ((mig, prev) :: rest) n s = downGo m f cur rest n s) := by
  refine ⟨?_, ?_, ?_⟩
  · intro m mig rest n s hc hU
    cases n with
    | zero => cases rest <;> rfl
    | succ k =>
      have hens := ensureColl_of_contains m.migrationsCollection s hc
      simp only [upGo, applied_noFaults, hU]
      simp [hens]
  · intro m mig rest n s hc hv
    cases n with
    | zero => cases rest <;> rfl
    | succ k =>
      have hens := ensureColl_of_contains m.migrationsCollection s hc
      simp only [upGo, applied_noFaults, hv]
      simp [hens]
  · intro m f cur mig prev rest n s hD
    cases n with
    | zero => cases rest <;> rfl
    | succ k =>
      simp [downGo, hD]

/-- C8 witness: one concrete skip of each kind. -/
theorem c8_skip_semantics_witness :
    upGo (NewMigrate []) noFaults [⟨5, "s", none, some true⟩] 3
        { collections := ["migrations"], ledger := [], clock := 0,
          events := [] } =
      upGo (NewMigrate []) noFaults [] 3
        { collections := ["migrations"], ledger := [], clock := 0,
          events := [] } ∧
    upGo (NewMigrate []) noFaults [⟨1, "", some true, some true⟩] 3
        { collections := ["migrations"], ledger := [⟨1, "", 0⟩], clock := 1,
          events := [] } =
      upGo (NewMigrate []) noFaults [] 3
        { collections := ["migrations"], ledger := [⟨1, "", 0⟩], clock := 1,
          events := [] } ∧
    downGo (NewMigrate []) noFaults 0 [(⟨2, "", some true, none⟩, sentinel)] 3
        { collections := ["migrations"], ledger := [], clock := 0,
          events := [] } =
      downGo (NewMigrate []) noFaults 0 []  3
        { collections := ["migrations"], ledger := [], clock := 0,
          events := [] } :=
  ⟨c8_skip_semantics.1 (NewMigrate []) ⟨5, "s", none, some true⟩ [] 3 _ rfl rfl,
    c8_skip_semantics.2.1 (NewMigrate []) ⟨1, "", some true, some true⟩ [] 3 _
      rfl rfl,
    c8_skip_semantics.2.2 (NewMigrate []) noFaults 0 ⟨2, "", some true, none⟩
      sentinel [] 3 _ rfl⟩

/-- C9: the ledger is append-only under every public operation: `Version`
and `Applied` leave it unchanged, `SetVersion` either leaves it unchanged
(failed insert) or prepends exactly one new record stamped with the store
clock, and `Up`/`Down` only extend it — no record is ever updated or
deleted. -/
theorem c9_ledger_append_only :
    (∀ (m : Migrate) (f : Faults) (s : Store),
      ((Migrate.Version m f s).2).ledger = s.ledger) ∧
    (∀ (m : Migrate) (f : Faults) (s : Store) (v : Nat),
      ((Migrate.Applied m f s v).2).ledger = s.ledger) ∧
    (∀ (m : Migrate) (f : Faults) (s : Store) (v : Nat) (d : String),
      ((Migrate.SetVersion m f s v d).2).ledger = s.ledger ∨
      ((Migrate.SetVersion m f s v d).2).ledger =
        (⟨v, d, s.clock⟩ : VersionRecord) :: s.ledger) ∧
    (∀ (m : Migrate) (f : Faults) (n : Int) (s : Store),
      List.IsSuffix s.ledger ((Migrate.Up m f n s).2).ledger) ∧
    (∀ (m : Migrate) (f : Faults) (n : Int) (s : Store),
      List.IsSuffix s.ledger ((Migrate.Down m f n s).2).ledger) := by
  refine ⟨version_ledger, applied_ledger, setVersion_ledger, ?_, ?_⟩
  · intro m f n s
    simp only [Migrate.Up]
    exact upGo_ledger_suffix m f _ _ s
  · intro m f n s
    simp only [Migrate.Down]
    split
    · rename_i e s1 heq
      have hv : s1.ledger = s.ledger := by
        have h2 := version_ledger m f s
        rw [heq] at h2
        exact h2
      rw [← hv]
    · rename_i cur s1 heq
      have hv : s1.ledger = s.ledger := by
        have h2 := version_ledger m f s
        rw [heq] at h2
        exact h2
      rw [← hv]
      exact downGo_ledger_suffix m f cur.1 _ _ s1

/-- C10: `Version()` and `Applied()` first create the migrations collection
when missing (a write side effect of reads); when that creation fails,
`Version()` surfaces the creation error while `Applied()` returns false;
`SetVersion()` inserts its record directly with no collection-existence
check. -/
theorem c10_create_collection_side_effect :
    (∀ (m : Migrate) (s : Store),
      ((Migrate.Version m noFaults s).2).collections.contains
        m.migrationsCollection = true) ∧
    (∀ (m : Migrate) (s : Store) (v : Nat),
      ((Migrate.Applied m noFaults s v).2).collections.contains
        m.migrationsCollection = true) ∧
    (∀ (m : Migrate) (f : Faults) (s : Store),
      f.listFail s = false →
      s.collections.contains m.migrationsCollection = false →
      f.createFail s = true →
      (Migrate.Version m f s).1 = .error .createErr) ∧
    (∀ (m : Migrate) (f : Faults) (s : Store) (v : Nat),
      f.listFail s = false →
      s.collections.contains m.migrationsCollection = false →
      f.createFail s = true →
      (Migrate.Applied m f s v).1 = false) ∧
    (∀ (m : Migrate) (s : Store) (v : Nat) (d : String),
      s.collections.contains m.migrationsCollection = false →
      Migrate.SetVersion m noFaults s v d =
        (.ok (), { s with
          ledger := ⟨v, d, s.clock⟩ :: s.ledger, clock := s.clock + 1 })) := by
  refine ⟨?_, ?_, ?_, ?_, ?_⟩
  · intro m s
    rw [version_state, createColl_noFaults]
    exact ensureColl_contains _ _
  · intro m s v
    rw [applied_state, createColl_noFaults]
    exact ensureColl_contains _ _
  · intro m f s hl hc hcr
    unfold Migrate.Version createCollectionIfNotExist isCollectionExist
      listCollectionNames runCreateCollection
    simp at hc
    simp [hl, hc, hcr]
  · intro m f s v hl hc hcr
    unfold Migrate.Applied createCollectionIfNotExist isCollectionExist
      listCollectionNames runCreateCollection
    simp at hc
    simp [hl, hc, hcr]
  · intro m s v d hc
    exact setVersion_noFaults m s v d

/-- C10 witness: a store with no collections; creation failure makes
`Version` error and `Applied` false, and `SetVersion` still inserts. -/
theorem c10_create_collection_side_effect_witness :
    (Migrate.Version (NewMigrate [])
      { listFail := fun _ => false, createFail := fun _ => true
        findFail := fun _ => false, decodeFail := fun _ => false
        insertFail := fun _ => false }
      { collections := [], ledger := [], clock := 0, events := [] }).1 =
      .error .createErr ∧
    (Migrate.Applied (NewMigrate [])
      { listFail := fun _ => false, createFail := fun _ => true
        findFail := fun _ => false, decodeFail := fun _ => false
        insertFail := fun _ => false }
      { collections := [], ledger := [], clock := 0, events := [] } 4).1 =
      false ∧
    Migrate.SetVersion (NewMigrate []) noFaults
        { collections := [], ledger := [], clock := 0, events := [] } 4 "d" =
      (.ok (),
        { collections := [], ledger := [⟨4, "d", 0⟩], clock := 1,
          events := [] }) :=
  ⟨c10_create_collection_side_effect.2.2.1 (NewMigrate [])
      { listFail := fun _ => false, createFail := fun _ => true
        findFail := fun _ => false, decodeFail := fun _ => false
        insertFail := fun _ => false }
      { collections := [], ledger := [], clock := 0, events := [] } rfl rfl rfl,
    c10_create_collection_side_effect.2.2.2.1 (NewMigrate [])
      { listFail := fun _ => false, createFail := fun _ => true
        findFail := fun _ => false, decodeFail := fun _ => false
        insertFail := fun _ => false }
      { collections := [], ledger := [], clock := 0, events := [] } 4 rfl rfl
      rfl,
    c10_create_collection_side_effect.2.2.2.2 (NewMigrate [])
      { collections := [], ledger := [], clock := 0, events := [] } 4 "d" rfl⟩

/-- A fresh store whose migrations collection already exists. -/
def emptyStore : Store :=
  { collections := ["migrations"], ledger := [], clock := 0, events := [] }

theorem insertByVersion_perm (mig : Migration) (l : List Migration) :
    (insertByVersion mig l).Perm (mig :: l) := by
  induction l with
  | nil => exact List.Perm.refl _
  | cons x xs ih =>
    simp only [insertByVersion]
    split
    · exact List.Perm.refl _
    · exact (List.Perm.cons x ih).trans (List.Perm.swap mig x xs)

theorem migrationSort_perm (l : List Migration) : (migrationSort l).Perm l := by
  induction l with
  | nil => exact List.Perm.refl _
  | cons x xs ih =>
    exact (insertByVersion_perm x (migrationSort xs)).trans (List.Perm.cons x ih)

theorem mem_insertByVersion (a mig : Migration) (l : List Migration) :
    a ∈ insertByVersion mig l ↔ a = mig ∨ a ∈ l := by
  rw [(insertByVersion_perm mig l).mem_iff]
  simp

theorem insertByVersion_sorted (mig : Migration) (l : List Migration)
    (h : List.Pairwise (fun a b => a.Version ≤ b.Version) l) :
    List.Pairwise (fun a b => a.Version ≤ b.Version)
      (insertByVersion mig l) := by
  induction l with
  | nil => simp [insertByVersion]
  | cons x xs ih =>
    rcases List.pairwise_cons.mp h with ⟨hx, hxs⟩
    simp only [insertByVersion]
    split
    · rename_i hle
      refine List.pairwise_cons.mpr ⟨?_, h⟩
      intro b hb
      rcases List.mem_cons.mp hb with rfl | hb
      · exact hle
      · exact le_trans hle (hx b hb)
    · rename_i hgt
      push_neg at hgt
      refine List.pairwise_cons.mpr ⟨?_, ih hxs⟩
      intro b hb
      rcases (mem_insertByVersion b mig xs).mp hb with rfl | hb
      · exact le_of_lt hgt
      · exact hx b hb

theorem migrationSort_sorted (l : List Migration) :
    List.Pairwise (fun a b => a.Version ≤ b.Version) (migrationSort l) := by
  induction l with
  | nil => simp [migrationSort]
  | cons x xs ih => exact insertByVersion_sorted x (migrationSort xs) ih

/-- Two mutually permuted, version-sorted lists with pairwise-distinct
versions are equal: the sorted order of a duplicate-free catalog does not
depend on registration order. -/
theorem sorted_nodup_perm_eq :
    ∀ (l1 l2 : List Migration), l1.Perm l2 →
      List.Pairwise (fun a b => a.Version ≤ b.Version) l1 →
      List.Pairwise (fun a b => a.Version ≤ b.Version) l2 →
      List.Pairwise (fun a b => a.Version ≠ b.Version) l1 →
      l1 = l2 := by
  intro l1
  induction l1 with
  | nil =>
    intro l2 hp _ _ _
    exact (hp.symm.eq_nil).symm
  | cons a t1 ih =>
    intro l2 hp hs1 hs2 hnd
    cases l2 with
    | nil =>
      have h0 := hp.eq_nil
      simp at h0
    | cons b t2 =>
      have hab : a = b := by
        rcases List.mem_cons.mp (hp.mem_iff.mp (List.mem_cons_self a t1)) with
          h | h
        · exact h
        · rcases List.mem_cons.mp
            (hp.symm.mem_iff.mp (List.mem_cons_self b t2)) with h2 | h2
          · exact h2.symm
          · have h3 : a.Version ≤ b.Version :=
              (List.pairwise_cons.mp hs1).1 b h2
            have h4 : b.Version ≤ a.Version :=
              (List.pairwise_cons.mp hs2).1 a h
            have h5 : a.Version ≠ b.Version :=
              (List.pairwise_cons.mp hnd).1 b h2
            omega
      subst hab
      rw [ih t2 hp.cons_inv (List.pairwise_cons.mp hs1).2
        (List.pairwise_cons.mp hs2).2 (List.pairwise_cons.mp hnd).2]

/-- The first `n` definitions of `l` that the ledger `led` leaves eligible
for `Up` (not applied there, forward action present), in list order. -/
def takeEligible (led : List VersionRecord) :
    List Migration → Nat → List Migration
  | [], _ => []
  | _ :: _, 0 => []
  | mig :: rest, n + 1 =>
    if hasVersion led mig.Version || mig.Up == none then
      takeEligible led rest (n + 1)
    else mig :: takeEligible led rest n

theorem takeEligible_cons_of_ne (v : Nat) (d : String) (ts : Nat) :
    ∀ (l : List Migration) (n : Nat) (led : List VersionRecord),
      (∀ mig ∈ l, mig.Version ≠ v) →
      takeEligible ((⟨v, d, ts⟩ : VersionRecord) :: led) l n =
        takeEligible led l n := by
  intro l
  induction l with
  | nil => intro n led _; rfl
  | cons mig rest ih =>
    intro n led hne
    cases n with
    | zero => rfl
    | succ k =>
      have hv : ((v == mig.Version) : Bool) = false := by
        simp only [beq_eq_false_iff_ne]
        exact fun h => hne mig (List.mem_cons_self mig rest) h.symm
      simp only [takeEligible, hasVersion_cons, hv, Bool.false_or]
      split
      · exact ih (k + 1) led fun m2 hm => hne m2 (List.mem_cons_of_mem _ hm)
      · rw [ih k led fun m2 hm => hne m2 (List.mem_cons_of_mem _ hm)]

/-- A fault-free `Up` walk whose present actions all succeed invokes exactly
the first `n` eligible definitions of the walked list, in list order. -/
theorem up_eligible_run (m : Migrate) :
    ∀ (l : List Migration) (n : Nat) (s : Store),
      (∀ mig ∈ l, mig.Up = none ∨ mig.Up = some true) →
      List.Pairwise (fun a b => a.Version ≠ b.Version) l →
      (upGo m noFaults l n s).1 = .ok () ∧
      ((upGo m noFaults l n s).2).events =
        s.events ++ (takeEligible s.ledger l n).map
          (fun mig => Event.upAction mig.Version) := by
  intro l
  induction l with
  | nil => intro n s _ _; simp [upGo, takeEligible]
  | cons mig rest ih =>
    intro n s hok hnd
    cases n with
    | zero => simp [upGo, takeEligible]
    | succ k =>
      simp only [upGo, applied_noFaults, takeEligible]
      by_cases hc : (hasVersion s.ledger mig.Version || (mig.Up == none)) = true
      · rw [if_pos hc, if_pos hc]
        have ihh := ih (k + 1) (ensureColl m.migrationsCollection s)
          (fun m2 hm => hok m2 (List.mem_cons_of_mem _ hm))
          (List.pairwise_cons.mp hnd).2
        rw [ensureColl_ledger, ensureColl_events] at ihh
        exact ihh
      · rw [if_neg hc, if_neg hc]
        have hUs : mig.Up = some true := by
          rcases hok mig (List.mem_cons_self mig rest) with h | h
          · exact absurd (by simp [h]) hc
          · exact h
        rw [hUs]
        simp only [beq_self_eq_true, if_true, setVersion_noFaults]
        have hne : ∀ m2 ∈ rest, m2.Version ≠ mig.Version :=
          fun m2 hm he => (List.pairwise_cons.mp hnd).1 m2 hm he.symm
        refine ⟨(ih k _ (fun m2 hm => hok m2 (List.mem_cons_of_mem _ hm))
          (List.pairwise_cons.mp hnd).2).1, ?_⟩
        rw [(ih k _ (fun m2 hm => hok m2 (List.mem_cons_of_mem _ hm))
          (List.pairwise_cons.mp hnd).2).2]
        simp only [ensureColl_ledger, ensureColl_events, ensureColl_clock]
        rw [takeEligible_cons_of_ne _ _ _ rest k s.ledger hne]
        simp

/-- C7: `Up(n)` treats `n ≤ 0` and `n > len(catalog)` as "all"; the walk
order is ascending by version regardless of registration order
(`migrationSort` yields a version-sorted permutation of the catalog, and for
duplicate-free catalogs the sorted result is permutation-invariant); for
`0 < n ≤ len`, a fault-free run whose present actions succeed performs
forward actions for exactly the first `n` eligible definitions (not yet
applied and having a forward action) of the sorted catalog, in that order.
Concretely: on unapplied `[1,2,3,4,5]`, `Up(2)` applies exactly versions 1
and 2 and leaves current version 2; a catalog registered `[5,1,3]` is
applied in order 1,3,5; and on a catalog registered `[4,2,1,3]` where
version 3 is already applied and version 2 has no forward action, `Up(2)`
applies exactly versions 1 and 4. -/
theorem c7_partial_count_and_order :
    (∀ (m : Migrate) (f : Faults) (s : Store) (n : Int), n ≤ 0 →
      Migrate.Up m f n s = Migrate.Up m f AllAvailable s) ∧
    (∀ (m : Migrate) (f : Faults) (s : Store) (n : Int),
      ((m.migrations.length : Int) < n) →
      Migrate.Up m f n s = Migrate.Up m f AllAvailable s) ∧
    (∀ l : List Migration,
      List.Pairwise (fun a b => a.Version ≤ b.Version) (migrationSort l)) ∧
    (∀ l : List Migration, (migrationSort l).Perm l) ∧
    (∀ l1 l2 : List Migration, l1.Perm l2 →
      List.Pairwise (fun a b => a.Version ≠ b.Version) l1 →
      migrationSort l1 = migrationSort l2) ∧
    (∀ (m : Migrate) (n : Int) (s : Store), 0 < n →
      n ≤ (m.migrations.length : Int) →
      (∀ mig ∈ m.migrations, mig.Up = none ∨ mig.Up = some true) →
      List.Pairwise (fun a b => a.Version ≠ b.Version) m.migrations →
      (Migrate.Up m noFaults n s).1 = .ok () ∧
      ((Migrate.Up m noFaults n s).2).events =
        s.events ++
          (takeEligible s.ledger (migrationSort m.migrations) n.toNat).map
            (fun mig => Event.upAction mig.Version)) ∧
    (Migrate.Up (NewMigrate
        [⟨1, "", some true, some true⟩, ⟨2, "", some true, some true⟩,
          ⟨3, "", some true, some true⟩, ⟨4, "", some true, some true⟩,
          ⟨5, "", some true, some true⟩]) noFaults 2 emptyStore =
      (.ok (),
        { collections := ["migrations"], ledger := [⟨2, "", 1⟩, ⟨1, "", 0⟩],
          clock := 2, events := [Event.upAction 1, Event.upAction 2] })) ∧
    ((Migrate.Version (NewMigrate
        [⟨1, "", some true, some true⟩, ⟨2, "", some true, some true⟩,
          ⟨3, "", some true, some true⟩, ⟨4, "", some true, some true⟩,
          ⟨5, "", some true, some true⟩]) noFaults
        { collections := ["migrations"], ledger := [⟨2, "", 1⟩, ⟨1, "", 0⟩],
          clock := 2,
          events := [Event.upAction 1, Event.upAction 2] }).1 = .ok (2, "")) ∧
    (((Migrate.Up (NewMigrate
        [⟨5, "", some true, some true⟩, ⟨1, "", some true, some true⟩,
          ⟨3, "", some true, some true⟩]) noFaults AllAvailable
        emptyStore).2).events =
      [Event.upAction 1, Event.upAction 3, Event.upAction 5]) ∧
    (Migrate.Up (NewMigrate
        [⟨4, "", some true, none⟩, ⟨2, "", none, none⟩,
          ⟨1, "", some true, none⟩, ⟨3, "", some true, none⟩]) noFaults 2
        { collections := ["migrations"], ledger := [⟨3, "", 0⟩], clock := 1,
          events := [] } =
      (.ok (),
        { collections := ["migrations"]
          ledger := [⟨4, "", 2⟩, ⟨1, "", 1⟩, ⟨3, "", 0⟩], clock := 3
          events := [Event.upAction 1, Event.upAction 4] })) := by
  refine ⟨?_, ?_, migrationSort_sorted, migrationSort_perm, ?_, ?_, rfl, rfl,
    rfl, rfl⟩
  · intro m f s n h
    simp only [Migrate.Up]
    rw [if_pos (Or.inl h),
      if_pos (Or.inl (show AllAvailable ≤ 0 by norm_num [AllAvailable]))]
  · intro m f s n h
    simp only [Migrate.Up]
    rw [if_pos (Or.inr h),
      if_pos (Or.inl (show AllAvailable ≤ 0 by norm_num [AllAvailable]))]
  · intro l1 l2 hp hnd
    exact sorted_nodup_perm_eq _ _
      ((migrationSort_perm l1).trans (hp.trans (migrationSort_perm l2).symm))
      (migrationSort_sorted l1) (migrationSort_sorted l2)
      (((migrationSort_perm l1).pairwise_iff fun h => Ne.symm h).mpr hnd)
  · intro m n s h0 hlen hok hnd
    simp only [Migrate.Up]
    rw [if_neg (by omega)]
    exact up_eligible_run m (migrationSort m.migrations) n.toNat s
      (fun mig hm => hok mig ((migrationSort_perm m.migrations).mem_iff.mp hm))
      (((migrationSort_perm m.migrations).pairwise_iff
        fun h => Ne.symm h).mpr hnd)

/-- C7 witness: `Up(0)` and `Up(7)` behave as `Up(AllAvailable)` on a
two-entry catalog; sorting `[5,1,3]` equals sorting `[1,3,5]`; and the
general eligible-selection clause instantiated on the `[4,2,1,3]` catalog
with version 3 applied and version 2 action-less picks versions 1 and 4. -/
theorem c7_partial_count_and_order_witness :
    Migrate.Up (NewMigrate [⟨1, "", some true, none⟩, ⟨2, "", some true, none⟩])
        noFaults 0 emptyStore =
      Migrate.Up (NewMigrate [⟨1, "", some true, none⟩, ⟨2, "", some true, none⟩])
        noFaults AllAvailable emptyStore ∧
    Migrate.Up (NewMigrate [⟨1, "", some true, none⟩, ⟨2, "", some true, none⟩])
        noFaults 7 emptyStore =
      Migrate.Up (NewMigrate [⟨1, "", some true, none⟩, ⟨2, "", some true, none⟩])
        noFaults AllAvailable emptyStore ∧
    migrationSort
        [⟨5, "", some true, some true⟩, ⟨1, "", some true, some true⟩,
          ⟨3, "", some true, some true⟩] =
      migrationSort
        [⟨1, "", some true, some true⟩, ⟨3, "", some true, some true⟩,
          ⟨5, "", some true, some true⟩] ∧
    (Migrate.Up (NewMigrate
        [⟨4, "", some true, none⟩, ⟨2, "", none, none⟩,
          ⟨1, "", some true, none⟩, ⟨3, "", some true, none⟩]) noFaults 2
        { collections := ["migrations"], ledger := [⟨3, "", 0⟩], clock := 1,
          events := [] }).1 = .ok () ∧
    ((Migrate.Up (NewMigrate
        [⟨4, "", some true, none⟩, ⟨2, "", none, none⟩,
          ⟨1, "", some true, none⟩, ⟨3, "", some true, none⟩]) noFaults 2
        { collections := ["migrations"], ledger := [⟨3, "", 0⟩], clock := 1,
          events := [] }).2).events =
      ([] : List Event) ++
        (takeEligible [⟨3, "", 0⟩]
          (migrationSort (NewMigrate
            [⟨4, "", some true, none⟩, ⟨2, "", none, none⟩,
              ⟨1, "", some true, none⟩,
              ⟨3, "", some true, none⟩]).migrations) (Int.toNat 2)).map
          (fun mig => Event.upAction mig.Version) :=
  ⟨c7_partial_count_and_order.1
      (NewMigrate [⟨1, "", some true, none⟩, ⟨2, "", some true, none⟩])
      noFaults emptyStore 0 (by norm_num),
    c7_partial_count_and_order.2.1
      (NewMigrate [⟨1, "", some true, none⟩, ⟨2, "", some true, none⟩])
      noFaults emptyStore 7 (by norm_num [NewMigrate]),
    c7_partial_count_and_order.2.2.2.2.1
      [⟨5, "", some true, some true⟩, ⟨1, "", some true, some true⟩,
        ⟨3, "", some true, some true⟩]
      [⟨1, "", some true, some true⟩, ⟨3, "", some true, some true⟩,
        ⟨5, "", some true, some true⟩]
      (by decide) (by decide),
    (c7_partial_count_and_order.2.2.2.2.2.1
      (NewMigrate
        [⟨4, "", some true, none⟩, ⟨2, "", none, none⟩,
          ⟨1, "", some true, none⟩, ⟨3, "", some true, none⟩]) 2
      { collections := ["migrations"], ledger := [⟨3, "", 0⟩], clock := 1,
        events := [] }
      (by norm_num) (by norm_num [NewMigrate]) (by decide) (by decide)).1,
    (c7_partial_count_and_order.2.2.2.2.2.1
      (NewMigrate
        [⟨4, "", some true, none⟩, ⟨2, "", none, none⟩,
          ⟨1, "", some true, none⟩, ⟨3, "", some true, none⟩]) 2
      { collections := ["migrations"], ledger := [⟨3, "", 0⟩], clock := 1,
        events := [] }
      (by norm_num) (by norm_num [NewMigrate]) (by decide) (by decide)).2⟩

/-- Fault schedule whose insert fails exactly when one record is already in
the ledger (so the second insert of a run from an empty ledger fails). -/
def secondInsertFails : Faults :=
  { noFaults with insertFail := fun s => s.ledger.length == 1 }

/-- C5: a failing forward/backward action or record insert aborts `Up`/
`Down` at once with that first error; records inserted by earlier
successful steps of the same call stay in the ledger (no rollback). -/
theorem c5_first_error_aborts_no_rollback :
    (∀ (m : Migrate) (f : Faults) (n : Int) (s : Store) (e : MErr)
        (s2 : Store), Migrate.Up m f n s = (.error e, s2) →
      List.IsSuffix s.ledger s2.ledger) ∧
    (∀ (m : Migrate) (f : Faults) (n : Int) (s : Store) (e : MErr)
        (s2 : Store), Migrate.Down m f n s = (.error e, s2) →
      List.IsSuffix s.ledger s2.ledger) ∧
    (Migrate.Up (NewMigrate
        [⟨1, "a", some true, some true⟩, ⟨2, "b", some false, some true⟩,
          ⟨3, "c", some true, some true⟩]) noFaults AllAvailable emptyStore =
      (.error (.actionErr 2),
        { collections := ["migrations"], ledger := [⟨1, "a", 0⟩], clock := 1,
          events := [Event.upAction 1, Event.upAction 2] })) ∧
    (Migrate.Up (NewMigrate
        [⟨1, "a", some true, some true⟩, ⟨2, "b", some true, some true⟩,
          ⟨3, "c", some true, some true⟩]) secondInsertFails AllAvailable
        emptyStore =
      (.error .insertErr,
        { collections := ["migrations"], ledger := [⟨1, "a", 0⟩], clock := 1,
          events := [Event.upAction 1, Event.upAction 2] })) ∧
    (Migrate.Down (NewMigrate
        [⟨1, "a", some true, some true⟩, ⟨2, "b", some true, some false⟩,
          ⟨3, "c", some true, some true⟩]) noFaults AllAvailable
        { collections := ["migrations"]
          ledger := [⟨3, "c", 2⟩, ⟨2, "b", 1⟩, ⟨1, "a", 0⟩], clock := 3
          events := [] } =
      (.error (.actionErr 2),
        { collections := ["migrations"]
          ledger := [⟨2, "b", 3⟩, ⟨3, "c", 2⟩, ⟨2, "b", 1⟩, ⟨1, "a", 0⟩]
          clock := 4
          events := [Event.downAction 3, Event.downAction 2] })) := by
  refine ⟨?_, ?_, rfl, rfl, rfl⟩
  · intro m f n s e s2 h
    simp only [Migrate.Up] at h
    exact upGo_suffix_of_eq _ _ _ _ _ _ _ h
  · intro m f n s e s2 h
    simp only [Migrate.Down] at h
    revert h
    split
    · rename_i e2 s1 heq
      intro h
      have hs2 : s1 = s2 := congrArg Prod.snd h
      have hv : s1.ledger = s.ledger := by
        have h2 := version_ledger m f s
        rw [heq] at h2
        exact h2
      rw [← hs2, hv]
    · rename_i cur s1 heq
      intro h
      have hv : s1.ledger = s.ledger := by
        have h2 := version_ledger m f s
        rw [heq] at h2
        exact h2
      have hs := downGo_suffix_of_eq _ _ _ _ _ _ _ _ h
      rw [hv] at hs
      exact hs

/-- C5 witness: the aborted `Up` run keeps the record of its one successful
step. -/
theorem c5_first_error_aborts_no_rollback_witness :
    List.IsSuffix ([] : List VersionRecord) [⟨1, "a", 0⟩] :=
  c5_first_error_aborts_no_rollback.1
    (NewMigrate
      [⟨1, "a", some true, some true⟩, ⟨2, "b", some false, some true⟩,
        ⟨3, "c", some true, some true⟩]) noFaults AllAvailable emptyStore
    (.actionErr 2)
    { collections := ["migrations"], ledger := [⟨1, "a", 0⟩], clock := 1,
      events := [Event.upAction 1, Event.upAction 2] } rfl

/-- Catalog `[10,20,30]`, every action present. -/
def catTen : Migrate :=
  NewMigrate
    [⟨10, "x", some true, some true⟩, ⟨20, "y", some true, some true⟩,
      ⟨30, "z", some true, some true⟩]

/-- The store where `[10,20,30]` is fully applied. -/
def sFullTen : Store :=
  { collections := ["migrations"]
    ledger := [⟨30, "z", 2⟩, ⟨20, "y", 1⟩, ⟨10, "x", 0⟩], clock := 3
    events := [] }

/-- C4: the pair walked by `Down` for sorted index `i` couples entry `i`
with entry `i-1` (the sentinel `{Version: 0}` for `i = 0`), so a successful
revert of entry `i` records the predecessor version/description; concretely
on `[10,20,30]` fully applied, `Down(1)` reverts 30 and records (20,"y"),
and a full `Down` ends with the record (0,""). -/
theorem c4_predecessor_bookkeeping :
    (∀ (l : List Migration) (mig : Migration),
      l[0]? = some mig →
      (withPred l)[l.length - 1]? = some (mig, sentinel)) ∧
    (∀ (l : List Migration) (i : Nat) (prev mig : Migration),
      l[i]? = some prev → l[i + 1]? = some mig →
      (withPred l)[l.length - i - 2]? = some (mig, prev)) ∧
    (Migrate.Down catTen noFaults 1 sFullTen =
      (.ok (),
        { collections := ["migrations"]
          ledger := [⟨20, "y", 3⟩, ⟨30, "z", 2⟩, ⟨20, "y", 1⟩, ⟨10, "x", 0⟩]
          clock := 4, events := [Event.downAction 30] })) ∧
    ((Migrate.Version catTen noFaults
        { collections := ["migrations"]
          ledger := [⟨20, "y", 3⟩, ⟨30, "z", 2⟩, ⟨20, "y", 1⟩, ⟨10, "x", 0⟩]
          clock := 4, events := [Event.downAction 30] }).1 = .ok (20, "y")) ∧
    (Migrate.Down catTen noFaults AllAvailable sFullTen =
      (.ok (),
        { collections := ["migrations"]
          ledger := [⟨0, "", 5⟩, ⟨10, "x", 4⟩, ⟨20, "y", 3⟩, ⟨30, "z", 2⟩,
            ⟨20, "y", 1⟩, ⟨10, "x", 0⟩]
          clock := 6
          events := [Event.downAction 30, Event.downAction 20,
            Event.downAction 10] })) ∧
    ((Migrate.Version catTen noFaults
        { collections := ["migrations"]
          ledger := [⟨0, "", 5⟩, ⟨10, "x", 4⟩, ⟨20, "y", 3⟩, ⟨30, "z", 2⟩,
            ⟨20, "y", 1⟩, ⟨10, "x", 0⟩]
          clock := 6
          events := [Event.downAction 30, Event.downAction 20,
            Event.downAction 10] }).1 = .ok (0, "")) := by
  refine ⟨?_, ?_, rfl, rfl, rfl, rfl⟩
  · intro l mig h
    cases l with
    | nil => simp at h
    | cons a t =>
      have ha : a = mig := by simpa using h
      subst ha
      unfold withPred
      simp only [List.length_cons, Nat.add_sub_cancel]
      rw [List.getElem?_reverse (by simp [List.length_zip])]
      have hidx : ((a :: t).zip (sentinel :: a :: t)).length - 1 - t.length = 0 := by
        simp [List.length_zip]
      rw [hidx]
      simp [List.zip_cons_cons]
  · intro l i prev mig hprev hmig
    have hlt : i + 1 < l.length := by
      by_contra hc
      push_neg at hc
      rw [List.getElem?_eq_none hc] at hmig
      exact Option.noConfusion hmig
    unfold withPred
    have hzlen : (l.zip (sentinel :: l)).length = l.length := by
      simp [List.length_zip]
    rw [List.getElem?_reverse (by rw [hzlen]; omega)]
    have hidx : (l.zip (sentinel :: l)).length - 1 - (l.length - i - 2) =
        i + 1 := by
      rw [hzlen]
      omega
    rw [hidx]
    rw [List.getElem?_zip_eq_some]
    exact ⟨hmig, by simpa using hprev⟩

/-- C4 witness: on the sorted catalog `[10,20,30]`, the `Down` walk pairs
entry 2 (version 30) with entry 1 (version 20), and entry 0 (version 10)
with the sentinel. -/
theorem c4_predecessor_bookkeeping_witness :
    (withPred
        [(⟨10, "x", some true, some true⟩ : Migration),
          ⟨20, "y", some true, some true⟩,
          ⟨30, "z", some true, some true⟩])[0]? =
      some (⟨30, "z", some true, some true⟩,
        ⟨20, "y", some true, some true⟩) ∧
    (withPred
        [(⟨10, "x", some true, some true⟩ : Migration),
          ⟨20, "y", some true, some true⟩,
          ⟨30, "z", some true, some true⟩])[2]? =
      some (⟨10, "x", some true, some true⟩, sentinel) :=
  ⟨c4_predecessor_bookkeeping.2.1
      [⟨10, "x", some true, some true⟩, ⟨20, "y", some true, some true⟩,
        ⟨30, "z", some true, some true⟩] 1
      ⟨20, "y", some true, some true⟩ ⟨30, "z", some true, some true⟩ rfl rfl,
    c4_predecessor_bookkeeping.1
      [⟨10, "x", some true, some true⟩, ⟨20, "y", some true, some true⟩,
        ⟨30, "z", some true, some true⟩]
      ⟨10, "x", some true, some true⟩ rfl⟩

/-- A three-entry catalog `[v1,v2,v3]` with every action present. -/
def roundCat (v1 v2 v3 : Nat) (d1 d2 d3 : String) : Migrate :=
  NewMigrate
    [⟨v1, d1, some true, some true⟩, ⟨v2, d2, some true, some true⟩,
      ⟨v3, d3, some true, some true⟩]

/-- The store where `[v1,v2,v3]` is fully applied. -/
def fullStore (v1 v2 v3 : Nat) (d1 d2 d3 : String) (t1 t2 t3 c : Nat) :
    Store :=
  { collections := ["migrations"]
    ledger := [⟨v3, d3, t3⟩, ⟨v2, d2, t2⟩, ⟨v1, d1, t1⟩], clock := c
    events := [] }

/-- The store left by `Down(AllAvailable)` from `fullStore`: three new
records (predecessors v2, v1, then the 0 sentinel) on top of the untouched
history, and three backward-action invocations. -/
def roundDownStore (v1 v2 v3 : Nat) (d1 d2 d3 : String) (t1 t2 t3 c : Nat) :
    Store :=
  { collections := ["migrations"]
    ledger := [⟨0, "", c + 2⟩, ⟨v1, d1, c + 1⟩, ⟨v2, d2, c⟩, ⟨v3, d3, t3⟩,
      ⟨v2, d2, t2⟩, ⟨v1, d1, t1⟩]
    clock := c + 3
    events := [Event.downAction v3, Event.downAction v2,
      Event.downAction v1] }

/-- C1 counterexample: for the catalog `[1,2,3]` fully applied,
`Down(AllAvailable)` followed by `Up(AllAvailable)` leaves the current
version 0 — not 3 — and invokes zero forward actions — not three — because
`Applied` still finds the historical records in the append-only ledger. -/
theorem c1_round_trip_counterexample :
    (Migrate.Version (roundCat 1 2 3 "a" "b" "c") noFaults
        ((Migrate.Up (roundCat 1 2 3 "a" "b" "c") noFaults AllAvailable
          ((Migrate.Down (roundCat 1 2 3 "a" "b" "c") noFaults AllAvailable
            (fullStore 1 2 3 "a" "b" "c" 0 1 2 3)).2)).2)).1 = .ok (0, "") ∧
    upCount ((Migrate.Up (roundCat 1 2 3 "a" "b" "c") noFaults AllAvailable
        ((Migrate.Down (roundCat 1 2 3 "a" "b" "c") noFaults AllAvailable
          (fullStore 1 2 3 "a" "b" "c" 0 1 2 3)).2)).2).events = 0 ∧
    downCount ((Migrate.Up (roundCat 1 2 3 "a" "b" "c") noFaults AllAvailable
        ((Migrate.Down (roundCat 1 2 3 "a" "b" "c") noFaults AllAvailable
          (fullStore 1 2 3 "a" "b" "c" 0 1 2 3)).2)).2).events = 3 ∧
    ¬ ((Migrate.Version (roundCat 1 2 3 "a" "b" "c") noFaults
        ((Migrate.Up (roundCat 1 2 3 "a" "b" "c") noFaults AllAvailable
          ((Migrate.Down (roundCat 1 2 3 "a" "b" "c") noFaults AllAvailable
            (fullStore 1 2 3 "a" "b" "c" 0 1 2 3)).2)).2)).1 = .ok (3, "c") ∧
      upCount ((Migrate.Up (roundCat 1 2 3 "a" "b" "c") noFaults AllAvailable
        ((Migrate.Down (roundCat 1 2 3 "a" "b" "c") noFaults AllAvailable
          (fullStore 1 2 3 "a" "b" "c" 0 1 2 3)).2)).2).events = 3) := by
  refine ⟨rfl, rfl, rfl, ?_⟩
  intro h
  exact absurd h.2 (by decide)

/-- C1 amended: for every catalog `[v1,v2,v3]` (`v1 < v2 < v3`, both
actions everywhere) that is fully applied, `Down(AllAvailable)` then
`Up(AllAvailable)` succeeds but leaves the current version 0 with empty
description, invoking exactly three backward actions and zero forward
actions: the historical records keep every version `Applied`, so the second
pass skips the whole catalog. -/
theorem c1_round_trip_amended (v1 v2 v3 : Nat) (d1 d2 d3 : String)
    (t1 t2 t3 c : Nat) (h12 : v1 < v2) (h23 : v2 < v3) :
    Migrate.Down (roundCat v1 v2 v3 d1 d2 d3) noFaults AllAvailable
        (fullStore v1 v2 v3 d1 d2 d3 t1 t2 t3 c) =
      (.ok (), roundDownStore v1 v2 v3 d1 d2 d3 t1 t2 t3 c) ∧
    (Migrate.Up (roundCat v1 v2 v3 d1 d2 d3) noFaults AllAvailable
        (roundDownStore v1 v2 v3 d1 d2 d3 t1 t2 t3 c)).1 = .ok () ∧
    ((Migrate.Up (roundCat v1 v2 v3 d1 d2 d3) noFaults AllAvailable
        (roundDownStore v1 v2 v3 d1 d2 d3 t1 t2 t3 c)).2).ledger =
      (roundDownStore v1 v2 v3 d1 d2 d3 t1 t2 t3 c).ledger ∧
    ((Migrate.Up (roundCat v1 v2 v3 d1 d2 d3) noFaults AllAvailable
        (roundDownStore v1 v2 v3 d1 d2 d3 t1 t2 t3 c)).2).events =
      (roundDownStore v1 v2 v3 d1 d2 d3 t1 t2 t3 c).events ∧
    (Migrate.Version (roundCat v1 v2 v3 d1 d2 d3) noFaults
        ((Migrate.Up (roundCat v1 v2 v3 d1 d2 d3) noFaults AllAvailable
          (roundDownStore v1 v2 v3 d1 d2 d3 t1 t2 t3 c)).2)).1 =
      .ok (0, "") ∧
    upCount ((Migrate.Up (roundCat v1 v2 v3 d1 d2 d3) noFaults AllAvailable
        (roundDownStore v1 v2 v3 d1 d2 d3 t1 t2 t3 c)).2).events = 0 ∧
    downCount ((Migrate.Up (roundCat v1 v2 v3 d1 d2 d3) noFaults AllAvailable
        (roundDownStore v1 v2 v3 d1 d2 d3 t1 t2 t3 c)).2).events = 3 := by
  have hle12 := Nat.le_of_lt h12
  have hle23 := Nat.le_of_lt h23
  have hsort : migrationSort (roundCat v1 v2 v3 d1 d2 d3).migrations =
      [⟨v1, d1, some true, some true⟩, ⟨v2, d2, some true, some true⟩,
        ⟨v3, d3, some true, some true⟩] := by
    simp [roundCat, NewMigrate, migrationSort, insertByVersion, hle12, hle23]
  have hwp : withPred
      [(⟨v1, d1, some true, some true⟩ : Migration),
        ⟨v2, d2, some true, some true⟩, ⟨v3, d3, some true, some true⟩] =
      [(⟨v3, d3, some true, some true⟩, ⟨v2, d2, some true, some true⟩),
        (⟨v2, d2, some true, some true⟩, ⟨v1, d1, some true, some true⟩),
        (⟨v1, d1, some true, some true⟩, sentinel)] := rfl
  have hcond : AllAvailable ≤ 0 ∨
      (((roundCat v1 v2 v3 d1 d2 d3).migrations.length : Int) <
        AllAvailable) := Or.inl (by norm_num [AllAvailable])
  have hdown : Migrate.Down (roundCat v1 v2 v3 d1 d2 d3) noFaults AllAvailable
      (fullStore v1 v2 v3 d1 d2 d3 t1 t2 t3 c) =
      (.ok (), roundDownStore v1 v2 v3 d1 d2 d3 t1 t2 t3 c) := by
    simp only [Migrate.Down]
    rw [version_noFaults_cons _ _ ⟨v3, d3, t3⟩ [⟨v2, d2, t2⟩, ⟨v1, d1, t1⟩]
      rfl]
    rw [ensureColl_of_contains _ _ (by rfl)]
    rw [if_pos hcond]
    rw [hsort, hwp]
    simp [downGo, Migrate.SetVersion, insertOne, noFaults, sentinel,
      fullStore, roundDownStore,
      show ¬ v3 < v3 by omega, show ¬ v3 < v2 by omega,
      show ¬ v3 < v1 by omega]
  have hyp : ∀ mig ∈ migrationSort (roundCat v1 v2 v3 d1 d2 d3).migrations,
      mig.Up ≠ none →
      hasVersion (roundDownStore v1 v2 v3 d1 d2 d3 t1 t2 t3 c).ledger
        mig.Version = true := by
    rw [hsort]
    intro mig hm _
    rcases List.mem_cons.mp hm with h | hm
    · subst h
      simp [roundDownStore, hasVersion]
    rcases List.mem_cons.mp hm with h | hm
    · subst h
      simp [roundDownStore, hasVersion]
    rcases List.mem_cons.mp hm with h | hm
    · subst h
      simp [roundDownStore, hasVersion]
    · simp at hm
  have hup := up_skips (roundCat v1 v2 v3 d1 d2 d3)
    (migrationSort (roundCat v1 v2 v3 d1 d2 d3).migrations)
    ((roundCat v1 v2 v3 d1 d2 d3).migrations.length)
    (roundDownStore v1 v2 v3 d1 d2 d3 t1 t2 t3 c) hyp
  have hled : ((Migrate.Up (roundCat v1 v2 v3 d1 d2 d3) noFaults AllAvailable
      (roundDownStore v1 v2 v3 d1 d2 d3 t1 t2 t3 c)).2).ledger =
      (⟨0, "", c + 2⟩ : VersionRecord) :: [⟨v1, d1, c + 1⟩, ⟨v2, d2, c⟩,
        ⟨v3, d3, t3⟩, ⟨v2, d2, t2⟩, ⟨v1, d1, t1⟩] := by
    simp only [Migrate.Up]
    rw [if_pos hcond]
    rw [hup.2.1]
    rfl
  have hver := version_noFaults_cons (roundCat v1 v2 v3 d1 d2 d3)
    ((Migrate.Up (roundCat v1 v2 v3 d1 d2 d3) noFaults AllAvailable
      (roundDownStore v1 v2 v3 d1 d2 d3 t1 t2 t3 c)).2)
    ⟨0, "", c + 2⟩
    [⟨v1, d1, c + 1⟩, ⟨v2, d2, c⟩, ⟨v3, d3, t3⟩, ⟨v2, d2, t2⟩, ⟨v1, d1, t1⟩]
    hled
  have hevents : ((Migrate.Up (roundCat v1 v2 v3 d1 d2 d3) noFaults
      AllAvailable (roundDownStore v1 v2 v3 d1 d2 d3 t1 t2 t3 c)).2).events =
      (roundDownStore v1 v2 v3 d1 d2 d3 t1 t2 t3 c).events := by
    simp only [Migrate.Up]
    rw [if_pos hcond]
    exact hup.2.2
  refine ⟨hdown, ?_, ?_, hevents, ?_, ?_, ?_⟩
  · simp only [Migrate.Up]
    rw [if_pos hcond]
    exact hup.1
  · simp only [Migrate.Up]
    rw [if_pos hcond]
    exact hup.2.1
  · rw [hver]
  · rw [hevents]
    rfl
  · rw [hevents]
    rfl

/-- C1 witness for the amended round trip, at catalog `[1,2,3]`. -/
theorem c1_round_trip_amended_witness :
    (1 : Nat) < 2 ∧ (2 : Nat) < 3 ∧
    Migrate.Down (roundCat 1 2 3 "a" "b" "c") noFaults AllAvailable
        (fullStore 1 2 3 "a" "b" "c" 0 1 2 3) =
      (.ok (), roundDownStore 1 2 3 "a" "b" "c" 0 1 2 3) :=
  ⟨by decide, by decide,
    (c1_round_trip_amended 1 2 3 "a" "b" "c" 0 1 2 3 (by decide)
      (by decide)).1⟩

end MongoMigrate
